import Mathlib

/-!
Verification development for the markdown service of mx-space-core
(`src/modules/markdown/markdown.service.ts`): a shallow embedding of the
pure transformation logic of the service — HTML-escaping, the custom
image/spoiler AST-to-HTML handlers, date normalization (`genDate`),
frontmatter composition (`markdownBuilder`) and archive packaging
(`generateArchive`) — together with theorems settling the specified
properties of those operations.

Strings are modelled through their underlying character lists; JavaScript
`String.prototype.trim` and single-character global `replace` are given
explicit definitions over `List Char`.
-/

namespace MxMd

/-- Whitespace test matching JS `String.prototype.trim` on the ASCII
whitespace characters that occur in this development. -/
def isWs (c : Char) : Bool := c == ' ' || c == '\t' || c == '\r' || c == '\n'

/-- Left trim on character lists. -/
def trimL (l : List Char) : List Char := l.dropWhile isWs

/-- Right trim on character lists. -/
def trimR (l : List Char) : List Char := (l.reverse.dropWhile isWs).reverse

/-- Two-sided trim on character lists. -/
def trimChars (l : List Char) : List Char := trimR (trimL l)

/-- JS `String.prototype.trim`, as used throughout `markdown.service.ts`. -/
def jsTrim (s : String) : String := ⟨trimChars s.data⟩

/-- JS `String.prototype.replace` with a single-character global pattern
and a plain replacement string: every occurrence of the character is
replaced by the replacement. -/
def replChar (c : Char) (r : List Char) (l : List Char) : List Char :=
  l.flatMap (fun x => if x == c then r else [x])

/-- The apostrophe character (U+0027). -/
def apC : Char := Char.ofNat 39

/-- The double-quote character (U+0022). -/
def qtC : Char := Char.ofNat 34

/-- The function `escapeHTMLTag` of `markdown.service.ts` (lines 270-281): four
sequential global replaces, in source order `<`, `>`, apostrophe,
double quote. -/
def escapeHTMLTag (s : String) : String :=
  ⟨replChar qtC "&#34;".data
    (replChar apC "&#39;".data
      (replChar '>' "&gt;".data
        (replChar '<' "&lt;".data s.data)))⟩

/-- The character-at-a-time escaping map that the specification describes:
`<`, `>`, apostrophe and double quote become their entities, every other
character (in particular `&`) is left unchanged. -/
def escMapChar (c : Char) : List Char :=
  if c == '<' then "&lt;".data
  else if c == '>' then "&gt;".data
  else if c == apC then "&#39;".data
  else if c == qtC then "&#34;".data
  else [c]

/-- The specification's description of the escaping, as a single pass. -/
def escapeSpec (s : String) : String := ⟨s.data.flatMap escMapChar⟩

/-- hast-style HTML node produced by the custom handlers: either an
element with a tag, properties and children, or a raw HTML fragment
(`u('raw', …)` in the source), which the serializer emits verbatim. -/
inductive Html where
  | element (tag : String) (attrs : List (String × String)) (children : List Html)
  | raw (content : String)
deriving Repr

/-- Hexadecimal digit (uppercase), for percent-encoding. -/
def hexDigit (n : Nat) : Char :=
  if n < 10 then Char.ofNat (48 + n) else Char.ofNat (55 + n)

/-- Percent-encoding of one byte. -/
def pctByte (b : Nat) : List Char := ['%', hexDigit (b / 16), hexDigit (b % 16)]

/-- UTF-8 bytes of a character. -/
def utf8Bytes (c : Char) : List Nat :=
  let n := c.toNat
  if n < 128 then [n]
  else if n < 2048 then [192 + n / 64, 128 + n % 64]
  else if n < 65536 then [224 + n / 4096, 128 + (n / 64) % 64, 128 + n % 64]
  else [240 + n / 262144, 128 + (n / 4096) % 64, 128 + (n / 64) % 64, 128 + n % 64]

/-- Characters never percent-encoded by the URL normalizer. -/
def urlSafe : List Char :=
  [';', '/', '?', ':', '@', '&', '=', '+', '$', ',', '-', '_', '.', '!', '~',
   '*', '(', ')', '#'] ++ [apC]

/-- Safe-character test for URL normalization. -/
def isUrlSafe (c : Char) : Bool := c.isAlphanum || urlSafe.contains c

/-- Hex-digit test (for recognizing already-percent-encoded sequences). -/
def isHexD (c : Char) : Bool :=
  c.isDigit || ('A' ≤ c && c ≤ 'F') || ('a' ≤ c && c ≤ 'f')

/-- Modelled from the spec: "image URLs are percent-encoded per standard
URL-normalization rules before emission". The normalizer itself (the
`normalize` helper used by `markdown.service.ts`) is an external dependency
whose source is not part of this repository; it is modelled as standard
percent-encoding that leaves alphanumerics and URL-structural characters
alone and keeps already-percent-encoded triples. -/
def encodeChars : List Char → List Char
  | [] => []
  | '%' :: a :: b :: rest =>
    if isHexD a && isHexD b then '%' :: a :: b :: encodeChars rest
    else pctByte 37 ++ encodeChars (a :: b :: rest)
  | c :: rest =>
    (if isUrlSafe c then [c] else (utf8Bytes c).flatMap pctByte) ++ encodeChars rest

/-- Modelled from the spec: URL normalization entry point (see
`encodeChars`). -/
def normalizeUrl (s : String) : String := ⟨encodeChars s.data⟩

/-- The alt-text analysis of the image handler (`markdown.service.ts`
lines 240-241): `_alt?.match(/^[!¡]/) ? _alt.replace(/^[¡!]/, '') : ''`.
If the alt text begins with a caption marker the marker is stripped,
otherwise the result is empty. -/
def stripCaptionMarker (alt : Option String) : String :=
  match alt with
  | none => ""
  | some s =>
    match s.data with
    | [] => ""
    | c :: rest => if c == '!' || c == '¡' then ⟨rest⟩ else ""

/-- The custom `image` handler of `markdown.service.ts` (lines 236-257):
with an empty caption it returns a bare `img` whose only property is the
raw `src`; with a caption it returns a `figure` holding an `img` with a
normalized `src` and a raw `figcaption` fragment carrying the escaped
caption. -/
def imageHandler (url : String) (alt : Option String) : Html :=
  let a := stripCaptionMarker alt
  if a == "" then
    .element "img" [("src", url)] []
  else
    .element "figure" []
      [ .element "img" [("src", normalizeUrl url)] [],
        .raw ("<figcaption style=\"text-align: center; margin: 1em auto;\">"
              ++ escapeHTMLTag a ++ "</figcaption>") ]

/-- The custom `spoiler` handler of `markdown.service.ts` (lines 258-263):
a `del` element with class `spoiler` and the fixed masking style. The tag
and the two properties are exactly the source's; the children argument is
modelled from the spec ("children are lowered normally (recursively),
preserving any nested formatting") because the spoiler grammar rule
(`./rules`) and the hast builder that attaches children live outside this
source file. -/
def spoilerHandler (children : List Html) : Html :=
  .element "del" [("class", "spoiler"), ("style", "filter: invert(25%);")] children

/-- The metadata part of a `DatatypeDto` item, as used by `genDate` and
the ingest loops: a title plus optional `date` and `updated` fields
(dates modelled by their serialized form; a missing/falsy field is
`none`). -/
structure DtoMeta where
  title : String
  date : Option String
  updated : Option String
deriving Repr, DecidableEq

/-- A `DatatypeDto` ingest item: raw text plus optional metadata. -/
structure Dto where
  text : String
  meta : Option DtoMeta
deriving Repr, DecidableEq

/-- The function `genDate` of `markdown.service.ts` (lines 137-154), with the impure
`new Date()` made explicit as a `now` parameter and `new Date(x)`
modelled as the identity on the serialized date value. Returns
`(created, modified)`. -/
def genDate (now : String) (item : Dto) : String × String :=
  match item.meta with
  | none => (now, now)
  | some meta =>
    ( match meta.date with
      | some d => d
      | none => now,
      match meta.updated with
      | some u => u
      | none =>
        match meta.date with
        | some d => d
        | none => now )

/-- The fields of a note record produced by ingest. -/
structure NoteRecord where
  title : String
  text : String
  created : String
  modified : String
deriving Repr, DecidableEq

/-- The per-item transform of `insertNotesToDb` (`markdown.service.ts`
lines 116-132): an item without metadata gets the fixed untitled name,
otherwise the supplied title; the text is passed through and the dates
come from `genDate`. -/
def noteRecordOf (now : String) (item : Dto) : NoteRecord :=
  match item.meta with
  | none =>
    { title := "未命名记录", text := item.text,
      created := (genDate now item).1, modified := (genDate now item).2 }
  | some meta =>
    { title := meta.title, text := item.text,
      created := (genDate now item).1, modified := (genDate now item).2 }

/-- A YAML value of the kinds exercised by the service's frontmatter:
a scalar (dates modelled by their serialized form) or a list of scalars. -/
inductive YamlVal where
  | str (s : String)
  | list (xs : List String)
deriving Repr, DecidableEq

/-- The metadata of a `MarkdownYAMLProperty` (the document shape consumed
by `markdownBuilder` and `generateArchive`): the reserved fields
`created`, `modified`, `title`, `slug`, plus the remaining caller-defined
fields in object order. -/
structure MetaInfo where
  created : String
  modified : String
  title : String
  slug : String
  extra : List (String × YamlVal)
deriving Repr, DecidableEq

/-- A `MarkdownYAMLProperty`: metadata plus body text. -/
structure MdProperty where
  meta : MetaInfo
  text : String
deriving Repr, DecidableEq

/-- JS object-literal insertion: a later entry with an existing key
overwrites the value in place, a fresh key is appended. -/
def objUpsert (l : List (String × YamlVal)) (kv : String × YamlVal) :
    List (String × YamlVal) :=
  if l.any (fun e => e.1 == kv.1) then
    l.map (fun e => if e.1 == kv.1 then (e.1, kv.2) else e)
  else l ++ [kv]

/-- The header object built by `markdownBuilder` (lines 196-201):
`{ date: created, updated: modified, title, ...omit(meta, ['created',
'modified', 'title']) }` — the omit keeps `slug` and the extra fields in
object order, and the spread upserts them into the literal. -/
def buildHeader (m : MetaInfo) : List (String × YamlVal) :=
  List.foldl objUpsert
    [("date", .str m.created), ("updated", .str m.modified), ("title", .str m.title)]
    (("slug", YamlVal.str m.slug) :: m.extra)

/-- The block-style YAML lines of one header field: `k: v` for a scalar,
`k:` followed by `  - x` item lines for a list. -/
def yamlLinesVal (k : String) (v : YamlVal) : List (List Char) :=
  match v with
  | .str s => [k.data ++ ':' :: ' ' :: s.data]
  | .list xs => (k.data ++ [':']) :: xs.map (fun x => ' ' :: ' ' :: '-' :: ' ' :: x.data)

/-- All YAML lines of a header, in field order. -/
def yamlLines (h : List (String × YamlVal)) : List (List Char) :=
  h.flatMap (fun kv => yamlLinesVal kv.1 kv.2)

/-- Concatenation of lines, each terminated by a newline. -/
def unlines (ls : List (List Char)) : List Char := ls.flatMap (fun l => l ++ ['\n'])

/-- Concatenation of lines with newline separators (no terminator). -/
def joinLines : List (List Char) → List Char
  | [] => []
  | [l] => l
  | l :: ls => l ++ '\n' :: joinLines ls

/-- Modelled from the spec: the `dump` of the external YAML serializer, on
the block-style subset the service emits — one `k: v` line per scalar
field, a `k:` line followed by `  - x` item lines per list field,
newline-terminated (§6: "a structured-data (YAML-like) serialization of
the header object"). -/
def dumpYaml (h : List (String × YamlVal)) : String := ⟨unlines (yamlLines h)⟩

/-- The function `markdownBuilder` of `markdown.service.ts` (lines 184-213), with the
template literal written out: without the YAML header it is the optional
title heading plus the trimmed text; with it, the outer-trimmed
concatenation of delimiter line, trimmed serialized header, delimiter
line, blank line, optional title heading, and trimmed text. -/
def markdownBuilder (property : MdProperty) (includeYAMLHeader : Bool)
    (showHeader : Bool) : String :=
  if !includeYAMLHeader then
    (if showHeader then "# " ++ property.meta.title ++ "\n\n" else "") ++ jsTrim property.text
  else
    jsTrim ("\n---\n" ++ jsTrim (dumpYaml (buildHeader property.meta)) ++ "\n---\n\n"
      ++ (if showHeader then "# " ++ property.meta.title ++ "\n\n" else "")
      ++ "\n" ++ jsTrim property.text ++ "\n")

/-- The archive entry name of one document (`generateArchive`, lines
174-177): the slug or title per policy, `.md` appended, every `/`
replaced by `-`. -/
def entryName (useSlug : Bool) (d : MdProperty) : String :=
  ⟨((if useSlug then d.meta.slug else d.meta.title) ++ ".md").data.map
    (fun c => if c == '/' then '-' else c)⟩

/-- The call `zip.file(name, content)` of the external archive container, modelled
from the spec (§3: "an Archive: a mapping from unique entry name to
content"; §7: "later entries silently overwrite earlier ones with the
same sanitized name"): an existing name has its content overwritten in
place, a fresh name is appended. -/
def zipFile (z : List (String × String)) (name content : String) :
    List (String × String) :=
  if z.any (fun e => e.1 == name) then
    z.map (fun e => if e.1 == name then (e.1, content) else e)
  else z ++ [(name, content)]

/-- The function `generateArchive` of `markdown.service.ts` (lines 164-182): one
`zip.file` call per document, in input order, starting from an empty
archive. -/
def generateArchive (useSlug : Bool) (documents : List MdProperty) :
    List (String × String) :=
  documents.foldl (fun z d => zipFile z (entryName useSlug d) d.text) []

/-- Splitting a character list at newlines (`n` lines have `n-1`
newlines; the empty list is one empty line). -/
def splitLinesList : List Char → List (List Char)
  | [] => [[]]
  | c :: rest =>
    if c == '\n' then [] :: splitLinesList rest
    else
      match splitLinesList rest with
      | [] => [[c]]
      | h :: t => (c :: h) :: t

/-- Is this YAML line a list-item line (`  - x`)? -/
def isItemLine (l : List Char) : Bool := l.take 4 == "  - ".data

/-- Split a header line at its first colon. -/
def splitAtColon (l : List Char) : Option (List Char × List Char) :=
  match l.dropWhile (fun c => !(c == ':')) with
  | ':' :: rest => some (l.takeWhile (fun c => !(c == ':')), rest)
  | _ => none

/-- One right-fold step of the header parser: item lines are collected as
pending list items, a `k:` line closes them into a list field, a `k: v`
line is a scalar field, anything else is dropped. -/
def parseStep (line : List Char) (acc : List String × List (String × YamlVal)) :
    List String × List (String × YamlVal) :=
  if isItemLine line then (⟨line.drop 4⟩ :: acc.1, acc.2)
  else
    match splitAtColon line with
    | some (k, ' ' :: v) => ([], (⟨k⟩, .str ⟨v⟩) :: acc.2)
    | some (k, []) => ([], (⟨k⟩, .list acc.1) :: acc.2)
    | _ => ([], acc.2)

/-- Modelled from the spec: the header-block parser of the decompose
direction of the Frontmatter Codec (§4.4); the decompose direction is not
part of this source file, so it is modelled as the inverse reading of the
block format of `dumpYaml`. -/
def parseYamlLines (ls : List (List Char)) : List (String × YamlVal) :=
  (ls.foldr parseStep ([], [])).2

/-- Modelled from the spec: the decompose direction of the Frontmatter
Codec (§4.4, §6) — a document whose first line is the `---` marker has
its header block read up to the next `---` marker line and parsed, and
the remainder trimmed as the body. -/
def decomposeDoc (s : String) : Option (List (String × YamlVal) × String) :=
  match splitLinesList s.data with
  | [] => none
  | first :: rest =>
    if first == "---".data then
      match rest.dropWhile (fun l => !(l == "---".data)) with
      | _ :: body =>
        some (parseYamlLines (rest.takeWhile (fun l => !(l == "---".data))),
              jsTrim ⟨joinLines body⟩)
      | [] => none
    else none

/-- Modelled from the spec: reading a decomposed header back into a
`MetaInfo` (§4.4 round-trip): `date` becomes `created`, `updated` becomes
`modified`, `title` and `slug` are taken as named, the remaining fields
are kept in order. -/
def recoverMeta (hdr : List (String × YamlVal)) : Option MetaInfo :=
  match (hdr.find? (fun kv => kv.1 == "date")).map Prod.snd,
        (hdr.find? (fun kv => kv.1 == "updated")).map Prod.snd,
        (hdr.find? (fun kv => kv.1 == "title")).map Prod.snd,
        (hdr.find? (fun kv => kv.1 == "slug")).map Prod.snd with
  | some (.str c), some (.str u), some (.str t), some (.str sl) =>
    some { created := c, modified := u, title := t, slug := sl,
           extra := hdr.filter (fun kv =>
             !(kv.1 == "date" || kv.1 == "updated" || kv.1 == "title" || kv.1 == "slug")) }
  | _, _, _, _ => none

/-- The reserved header keys of the composed frontmatter. -/
def reservedKeys : List String := ["date", "updated", "title", "slug"]

/-- Well-formed scalar value: non-empty, no newline, non-whitespace first
and last character. -/
def wfScalar (s : String) : Bool :=
  !s.data.isEmpty && !isWs (s.data.headD ' ') && !isWs (s.data.getLastD ' ')
    && s.data.all (fun c => c ≠ '\n')

/-- Well-formed header key: a well-formed scalar containing no colon and
not starting with a dash. -/
def wfKey (s : String) : Bool :=
  wfScalar s && s.data.all (fun c => c ≠ ':') && s.data.headD ' ' ≠ '-'

/-- Well-formed YAML value: a well-formed scalar, or a non-empty list of
well-formed scalars. -/
def wfVal : YamlVal → Bool
  | .str s => wfScalar s
  | .list xs => !xs.isEmpty && xs.all wfScalar

/-- Key lists without duplicates. -/
def nodupKeys : List String → Bool
  | [] => true
  | k :: ks => !ks.contains k && nodupKeys ks

/-- Well-formed metadata for the frontmatter round-trip: all reserved
fields are clean scalars, all extra fields have clean non-reserved,
pairwise-distinct keys and well-formed values. -/
def wfMeta (m : MetaInfo) : Bool :=
  wfScalar m.created && wfScalar m.modified && wfScalar m.title && wfScalar m.slug
    && m.extra.all (fun kv => wfKey kv.1 && wfVal kv.2 && !reservedKeys.contains kv.1)
    && nodupKeys (m.extra.map Prod.fst)

/-- One attribute rendered as ` key="value"`. -/
def renderAttr (kv : String × String) : String :=
  " " ++ kv.1 ++ "=\"" ++ kv.2 ++ "\""

/-- An element's opening tag with its attributes. -/
def openTag (tag : String) (attrs : List (String × String)) : String :=
  "<" ++ tag ++ String.join (attrs.map renderAttr) ++ ">"

/-- An element's closing tag. -/
def closeTag (tag : String) : String := "</" ++ tag ++ ">"

mutual

/-- Modelled from the spec: the hast-to-HTML serializer (an external
dependency) on the nodes the handlers produce — raw fragments verbatim
(§4.3 "dangerous raw HTML passthrough is permitted"), `img` as a void
element, every other element as open tag, children, close tag. -/
def renderHtml : Html → String
  | .raw s => s
  | .element tag attrs children =>
    if tag == "img" then openTag tag attrs
    else openTag tag attrs ++ renderHtmlList children ++ closeTag tag

/-- Serialization of a sequence of sibling nodes. -/
def renderHtmlList : List Html → String
  | [] => ""
  | h :: t => renderHtml h ++ renderHtmlList t

end

/-! ## Basic string lemmas -/

@[simp]
theorem data_append (s t : String) : (s ++ t).data = s.data ++ t.data := by
  cases s; cases t; rfl

@[simp]
theorem mk_data (s : String) : String.mk s.data = s := by
  cases s; rfl

/-! ## The escaping chain (claims C1, C10) -/

/-- The body of `escapeHTMLTag` as a character-list transform. -/
def escChain (l : List Char) : List Char :=
  replChar qtC "&#34;".data
    (replChar apC "&#39;".data
      (replChar '>' "&gt;".data
        (replChar '<' "&lt;".data l)))

theorem escapeHTMLTag_eq_escChain (s : String) :
    escapeHTMLTag s = ⟨escChain s.data⟩ := rfl

theorem replChar_append (c : Char) (r a b : List Char) :
    replChar c r (a ++ b) = replChar c r a ++ replChar c r b := by
  simp [replChar]

theorem escChain_append (a b : List Char) :
    escChain (a ++ b) = escChain a ++ escChain b := by
  simp [escChain, replChar_append]

theorem escChain_single (x : Char) : escChain [x] = escMapChar x := by
  by_cases h1 : x = '<'
  · subst h1; decide
  · by_cases h2 : x = '>'
    · subst h2; decide
    · by_cases h3 : x = apC
      · subst h3; decide
      · by_cases h4 : x = qtC
        · subst h4; decide
        · simp [escChain, replChar, escMapChar, h1, h2, h3, h4]

theorem escChain_eq_flatMap (l : List Char) : escChain l = l.flatMap escMapChar := by
  induction l with
  | nil => rfl
  | cons x l ih =>
    have hx : x :: l = [x] ++ l := rfl
    rw [hx, escChain_append, escChain_single, List.flatMap_append, ih]
    simp [List.flatMap_cons]

theorem escMapChar_self (x : Char) :
    (escMapChar x).flatMap escMapChar = escMapChar x := by
  by_cases h1 : x = '<'
  · subst h1; decide
  · by_cases h2 : x = '>'
    · subst h2; decide
    · by_cases h3 : x = apC
      · subst h3; decide
      · by_cases h4 : x = qtC
        · subst h4; decide
        · simp [escMapChar, h1, h2, h3, h4]

theorem escapeHTMLTag_eq_escapeSpec (s : String) :
    escapeHTMLTag s = escapeSpec s := by
  rw [escapeHTMLTag_eq_escChain, escapeSpec, escChain_eq_flatMap]

/-- C10: `escapeHTMLTag` changes no character other than `<`, `>`,
apostrophe and double quote (in particular `&` is never escaped: it is a
one-pass character map that is the identity off those four characters),
and it is idempotent: escaping already-escaped text changes nothing. -/
theorem C10_escape_charwise_and_idempotent (s : String) :
    escapeHTMLTag s = escapeSpec s ∧
    escapeHTMLTag (escapeHTMLTag s) = escapeHTMLTag s := by
  refine ⟨escapeHTMLTag_eq_escapeSpec s, ?_⟩
  rw [escapeHTMLTag_eq_escapeSpec, escapeHTMLTag_eq_escapeSpec]
  apply String.ext
  show (String.mk ((s.data.flatMap escMapChar).flatMap escMapChar)).data
      = (String.mk (s.data.flatMap escMapChar)).data
  simp only [List.flatMap_assoc]
  congr 1
  funext x
  exact escMapChar_self x

/-! ## The image handler (claims C1, C2, C9) -/

/-- Does the alt text begin with a caption marker character? -/
def beginsWithMarker (alt : Option String) : Bool :=
  match alt with
  | none => false
  | some s =>
    match s.data with
    | [] => false
    | c :: _ => c == '!' || c == '¡'

theorem stripCaptionMarker_of_no_marker (alt : Option String)
    (h : beginsWithMarker alt = false) : stripCaptionMarker alt = "" := by
  match alt with
  | none => rfl
  | some s =>
    match hs : s.data with
    | [] => simp [stripCaptionMarker, hs]
    | c :: rest =>
      simp only [beginsWithMarker, hs] at h
      simp [stripCaptionMarker, hs, h]

/-- C1: for an image whose alt text is a caption marker followed by a
non-empty caption `c`, the handler emits a `figure` containing an `img`
whose `src` is the URL-normalized url, followed by a raw (not re-parsed)
`figcaption` fragment whose text is `c` with `<`, `>`, apostrophe and
double quote replaced by `&lt;`, `&gt;`, `&#39;` and `&#34;`. -/
theorem C1_captioned_image (url : String) (m : Char) (c : String)
    (hm : m = '!' ∨ m = '¡') (hc : c ≠ "") :
    imageHandler url (some ⟨m :: c.data⟩) =
      .element "figure" []
        [ .element "img" [("src", normalizeUrl url)] [],
          .raw ("<figcaption style=\"text-align: center; margin: 1em auto;\">"
                ++ escapeSpec c ++ "</figcaption>") ] := by
  have hmark : (m == '!' || m == '¡') = true := by
    rcases hm with h | h <;> subst h <;> decide
  have hstrip : stripCaptionMarker (some ⟨m :: c.data⟩) = c := by
    simp [stripCaptionMarker, hmark]
  have hcne : (c == "") = false := by
    cases hbe : c == ""
    · rfl
    · exact absurd (by simpa using hbe) hc
  rw [imageHandler, hstrip, escapeHTMLTag_eq_escapeSpec c]
  simp [hcne]

/-- C1 witness: the spec's Example 1 input. -/
theorem C1_captioned_image_witness :
    ("Photo of a fox" : String) ≠ "" ∧
    imageHandler "fox.png" (some "¡Photo of a fox") =
      .element "figure" []
        [ .element "img" [("src", normalizeUrl "fox.png")] [],
          .raw ("<figcaption style=\"text-align: center; margin: 1em auto;\">"
                ++ escapeSpec "Photo of a fox" ++ "</figcaption>") ] :=
  ⟨by decide, C1_captioned_image "fox.png" '¡' "Photo of a fox" (Or.inr rfl) (by decide)⟩

/-- C2 counterexample: for the markerless image `![](a"b.png)` the
handler emits the raw url as `src`, although URL normalization would
percent-encode the double quote — so the emitted `src` is not the
URL-normalized form of the url. -/
theorem C2_counterexample :
    imageHandler "a\"b.png" none = .element "img" [("src", "a\"b.png")] [] ∧
    normalizeUrl "a\"b.png" = "a%22b.png" ∧
    ("a\"b.png" : String) ≠ "a%22b.png" :=
  ⟨rfl, by decide, by decide⟩

/-- C2 amended: for every image node whose alt text does not begin with
the caption marker, the handler emits a bare `img` element (no figure,
no figcaption) whose `src` attribute is the image url verbatim — the
no-caption branch performs no URL normalization. -/
theorem C2_bare_image_raw_src (url : String) (alt : Option String)
    (h : beginsWithMarker alt = false) :
    imageHandler url alt = .element "img" [("src", url)] [] := by
  rw [imageHandler, stripCaptionMarker_of_no_marker alt h]
  simp

/-- C2 witness. -/
theorem C2_bare_image_raw_src_witness :
    beginsWithMarker (some "kitten") = false ∧
    imageHandler "img/a.png" (some "kitten") =
      .element "img" [("src", "img/a.png")] [] :=
  ⟨rfl, C2_bare_image_raw_src "img/a.png" (some "kitten") rfl⟩

/-- C9: for an image whose alt text does not begin with a marker, or
whose alt text is a marker character alone, the handler emits an `img`
element whose only attribute is `src` — the original alt text is
dropped and no `alt` attribute is emitted. -/
theorem C9_alt_text_dropped (url : String) (alt : Option String)
    (h : beginsWithMarker alt = false ∨ alt = some "!" ∨ alt = some "¡") :
    imageHandler url alt = .element "img" [("src", url)] [] ∧
    [("src", url)].all (fun kv => kv.1 ≠ "alt") = true := by
  refine ⟨?_, by simp⟩
  rcases h with h | h | h
  · rw [imageHandler, stripCaptionMarker_of_no_marker alt h]
    simp
  · subst h; rfl
  · subst h; rfl

/-- C9 witness: a marker-only alt text. -/
theorem C9_alt_text_dropped_witness :
    ((some "¡" : Option String) = some "¡") ∧
    (imageHandler "x.png" (some "¡") = .element "img" [("src", "x.png")] [] ∧
     [("src", "x.png")].all (fun kv => kv.1 ≠ "alt") = true) :=
  ⟨rfl, C9_alt_text_dropped "x.png" (some "¡") (Or.inr (Or.inr rfl))⟩

/-! ## The spoiler handler (claim C3) -/

/-- C3: the spoiler handler yields a `del` element with class `spoiler`
and the inline style `filter: invert(25%);`, whose children are the
normally-lowered children, so its serialized inner HTML is exactly the
normal rendering of the spoiler's content. -/
theorem C3_spoiler (children : List Html) :
    spoilerHandler children =
      .element "del" [("class", "spoiler"), ("style", "filter: invert(25%);")] children ∧
    renderHtml (spoilerHandler children) =
      "<del class=\"spoiler\" style=\"filter: invert(25%);\">"
        ++ renderHtmlList children ++ "</del>" := by
  constructor
  · rfl
  · have h1 : openTag "del" [("class", "spoiler"), ("style", "filter: invert(25%);")]
        = "<del class=\"spoiler\" style=\"filter: invert(25%);\">" := by decide
    have h2 : closeTag "del" = "</del>" := by decide
    simp only [spoilerHandler, renderHtml]
    rw [h1, h2]
    simp

/-! ## Date normalization (claim C6) -/

/-- C6: ingest date normalization always produces both dates: `created`
is the item's date when present, else the current time; `modified` is the
item's update time when present, else the date, else the current time;
the supplied text (and, when metadata is present, the supplied title)
pass through unchanged. -/
theorem C6_genDate_normalization (now : String) (item : Dto) :
    (noteRecordOf now item).created = ((item.meta.bind DtoMeta.date).getD now) ∧
    (noteRecordOf now item).modified =
      (((item.meta.bind DtoMeta.updated).or (item.meta.bind DtoMeta.date)).getD now) ∧
    (noteRecordOf now item).text = item.text ∧
    (noteRecordOf now item).title =
      (match item.meta with
       | some meta => meta.title
       | none => "未命名记录") := by
  obtain ⟨text, meta⟩ := item
  match meta with
  | none => exact ⟨rfl, rfl, rfl, rfl⟩
  | some ⟨t, d, u⟩ =>
    refine ⟨?_, ?_, rfl, rfl⟩
    · cases d <;> rfl
    · cases d <;> cases u <;> rfl

/-! ## Archive packaging (claims C7, C8) -/

/-- Lookup of an entry's content by name in an archive. -/
def lookupA (z : List (String × String)) (n : String) : Option String :=
  (z.find? (fun e => e.1 == n)).map Prod.snd

theorem lookupA_cons (e : String × String) (z : List (String × String)) (m : String) :
    lookupA (e :: z) m = if (e.1 == m) = true then some e.2 else lookupA z m := by
  rw [lookupA, List.find?_cons]
  cases h : (e.1 == m) <;> simp [h, lookupA]

theorem lookupA_overwrite (n c m : String) (z : List (String × String)) :
    lookupA (z.map (fun e => if e.1 == n then (e.1, c) else e)) m
      = if m = n then (lookupA z n).map (fun _ => c) else lookupA z m := by
  induction z with
  | nil => by_cases hmn : m = n <;> simp [lookupA, hmn]
  | cons e z ih =>
    rw [List.map_cons]
    by_cases hen : (e.1 == n) = true
    · have hen' : e.1 = n := beq_iff_eq.mp hen
      rw [if_pos hen, lookupA_cons, lookupA_cons, lookupA_cons, ih]
      by_cases hmn : m = n
      · have hem : (e.1 == m) = true := beq_iff_eq.mpr (hen'.trans hmn.symm)
        simp [hem, hen, hmn]
      · have hem : (e.1 == m) = false := by
          rw [beq_eq_false_iff_ne]
          intro hcontra
          exact hmn (hcontra.symm.trans hen')
        simp [hem, hmn]
    · have hen' : e.1 ≠ n := by
        rw [Bool.not_eq_true, beq_eq_false_iff_ne] at hen
        exact hen
      rw [if_neg hen, lookupA_cons, lookupA_cons, lookupA_cons, ih]
      by_cases hmn : m = n
      · have hem : (e.1 == m) = false := by
          rw [beq_eq_false_iff_ne]
          intro hcontra
          exact hen' (hcontra.trans hmn)
        simp [hem, hmn, hen]
      · by_cases hem : (e.1 == m) = true
        · simp [hem, hmn]
        · simp [hem, hmn]

theorem lookupA_zipFile (z : List (String × String)) (n c m : String) :
    lookupA (zipFile z n c) m = if m = n then some c else lookupA z m := by
  rw [zipFile]
  split
  · next hany =>
    rw [lookupA_overwrite]
    by_cases hmn : m = n
    · subst hmn
      have : ∃ x ∈ z, (x.1 == m) = true := List.any_eq_true.mp hany
      have hsome : (z.find? (fun e => e.1 == m)).isSome = true :=
        List.find?_isSome.mpr this
      obtain ⟨v, hv⟩ := Option.isSome_iff_exists.mp hsome
      simp [lookupA, hv]
    · simp [hmn]
  · next hany =>
    have hnone : z.find? (fun e => e.1 == n) = none := by
      rw [List.find?_eq_none]
      intro x hx
      have := List.any_eq_false.mp (Bool.eq_false_iff.mpr hany) x hx
      simpa using this
    by_cases hmn : m = n
    · subst hmn
      simp [lookupA, List.find?_append, hnone, List.find?_cons]
    · have hnm : (n == m) = false := by
        rw [beq_eq_false_iff_ne]
        intro hcontra
        exact hmn hcontra.symm
      simp [lookupA, List.find?_append, List.find?_cons, hnm, hmn]

theorem generateArchive_go_lookup (useSlug : Bool) (docs : List MdProperty)
    (z : List (String × String)) (n : String) :
    lookupA (docs.foldl (fun z d => zipFile z (entryName useSlug d) d.text) z) n
      = match (docs.filter (fun d => entryName useSlug d == n)).getLast? with
        | some d => some d.text
        | none => lookupA z n := by
  induction docs generalizing z with
  | nil => simp
  | cons d docs ih =>
    rw [List.foldl_cons, ih, List.filter_cons]
    by_cases hd : (entryName useSlug d == n) = true
    · have hn : n = entryName useSlug d := (beq_iff_eq.mp hd).symm
      rw [if_pos hd, List.getLast?_cons]
      cases hF : (docs.filter (fun d => entryName useSlug d == n)).getLast? with
      | some d' => simp
      | none => simp [lookupA_zipFile, hn]
    · have hne : n ≠ entryName useSlug d := by
        intro h
        exact hd (beq_iff_eq.mpr h.symm)
      rw [if_neg hd]
      cases hF : (docs.filter (fun d => entryName useSlug d == n)).getLast? with
      | some d' => simp
      | none => simp [lookupA_zipFile, hne]

/-- Entry names of an archive. -/
def archKeys (z : List (String × String)) : List String := z.map Prod.fst

theorem archKeys_zipFile (z : List (String × String)) (n c : String) :
    archKeys (zipFile z n c) = archKeys z ∨
    archKeys (zipFile z n c) = archKeys z ++ [n] := by
  rw [zipFile]
  split
  · left
    rw [archKeys, archKeys, List.map_map]
    apply List.map_congr_left
    intro e _
    by_cases he : e.1 = n <;> simp [he]
  · right
    simp [archKeys]

theorem nodup_archKeys_zipFile (z : List (String × String)) (n c : String)
    (h : (archKeys z).Nodup) : (archKeys (zipFile z n c)).Nodup := by
  rcases archKeys_zipFile z n c with heq | heq
  · rw [heq]; exact h
  · rw [heq, List.nodup_append]
    refine ⟨h, List.nodup_singleton n, ?_⟩
    intro k hk hn
    rw [List.mem_singleton] at hn
    subst hn
    rw [archKeys, List.mem_map] at hk
    obtain ⟨e, he, hke⟩ := hk
    by_cases hany : z.any (fun e => e.1 == k) = true
    · rw [zipFile, if_pos hany] at heq
      have hlen := congrArg List.length heq
      simp [archKeys] at hlen
    · have := List.any_eq_false.mp (Bool.eq_false_iff.mpr hany) e he
      exact this (beq_iff_eq.mpr hke)

theorem nodup_archKeys_generateArchive (useSlug : Bool) (docs : List MdProperty) :
    (archKeys (generateArchive useSlug docs)).Nodup := by
  rw [generateArchive]
  have : ∀ (ds : List MdProperty) (z : List (String × String)), (archKeys z).Nodup →
      (archKeys (ds.foldl (fun z d => zipFile z (entryName useSlug d) d.text) z)).Nodup := by
    intro ds
    induction ds with
    | nil => intro z h; exact h
    | cons d ds ih =>
      intro z h
      exact ih _ (nodup_archKeys_zipFile z _ _ h)
  exact this docs [] (by simp [archKeys])

theorem filter_length_le_one_of_nodup (z : List (String × String)) (n : String)
    (h : (archKeys z).Nodup) : (z.filter (fun e => e.1 == n)).length ≤ 1 := by
  induction z with
  | nil => simp
  | cons e z ih =>
    rw [archKeys, List.map_cons, List.nodup_cons] at h
    obtain ⟨hnotin, hnd⟩ := h
    rw [List.filter_cons]
    by_cases he : (e.1 == n) = true
    · rw [if_pos he]
      have hz : z.filter (fun e => e.1 == n) = [] := by
        rw [List.filter_eq_nil_iff]
        intro x hx hxn
        apply hnotin
        rw [List.mem_map]
        exact ⟨x, hx, by rw [beq_iff_eq.mp hxn, ← beq_iff_eq.mp he]⟩
      simp [hz]
    · rw [if_neg he]
      exact ih hnd

theorem lookupA_none_iff (z : List (String × String)) (n : String) :
    lookupA z n = none ↔ z.filter (fun e => e.1 == n) = [] := by
  rw [lookupA, Option.map_eq_none', List.find?_eq_none, List.filter_eq_nil_iff]

/-- C7: with pairwise-distinct sanitized names, each document yields
exactly its own archive entry, in input order: the entry name is the slug
(by-slug policy) or title, with `.md` appended and every `/` replaced by
`-`, and the content is the document's text. -/
theorem C7_archive_naming (useSlug : Bool) (docs : List MdProperty)
    (h : (docs.map (entryName useSlug)).Nodup) :
    generateArchive useSlug docs =
      docs.map (fun d =>
        (⟨((if useSlug then d.meta.slug else d.meta.title) ++ ".md").data.map
            (fun c => if c == '/' then '-' else c)⟩, d.text)) := by
  show generateArchive useSlug docs = docs.map (fun d => (entryName useSlug d, d.text))
  rw [generateArchive]
  have main : ∀ (ds : List MdProperty) (z : List (String × String)),
      (ds.map (entryName useSlug)).Nodup →
      (∀ d ∈ ds, z.any (fun e => e.1 == entryName useSlug d) = false) →
      ds.foldl (fun z d => zipFile z (entryName useSlug d) d.text) z
        = z ++ ds.map (fun d => (entryName useSlug d, d.text)) := by
    intro ds
    induction ds with
    | nil => intro z _ _; simp
    | cons d ds ih =>
      intro z hnd hdisj
      rw [List.map_cons, List.nodup_cons] at hnd
      obtain ⟨hnotin, hnd⟩ := hnd
      rw [List.foldl_cons]
      have hz : zipFile z (entryName useSlug d) d.text
          = z ++ [(entryName useSlug d, d.text)] := by
        rw [zipFile, if_neg]
        rw [Bool.not_eq_true]
        exact hdisj d (List.mem_cons_self d ds)
      rw [hz, ih _ hnd]
      · simp
      · intro d' hd'
        rw [List.any_append]
        have h1 : z.any (fun e => e.1 == entryName useSlug d') = false :=
          hdisj d' (List.mem_cons_of_mem d hd')
        have h2 : (entryName useSlug d == entryName useSlug d') = false := by
          rw [beq_eq_false_iff_ne]
          intro hcontra
          exact hnotin (List.mem_map.mpr ⟨d', hd', hcontra.symm⟩)
        simp [h1, h2]
  exact main docs [] h (by simp)

/-- C7 witness: two documents with distinct names under the by-title
policy. -/
theorem C7_archive_naming_witness :
    (([⟨{created := "c", modified := "m", title := "A/B", slug := "s1", extra := []}, "one"⟩,
       ⟨{created := "c", modified := "m", title := "C", slug := "s2", extra := []}, "two"⟩]
        : List MdProperty).map (entryName false)).Nodup ∧
    generateArchive false
      [⟨{created := "c", modified := "m", title := "A/B", slug := "s1", extra := []}, "one"⟩,
       ⟨{created := "c", modified := "m", title := "C", slug := "s2", extra := []}, "two"⟩]
      = [("A-B.md", "one"), ("C.md", "two")] := by
  refine ⟨by decide, ?_⟩
  rw [C7_archive_naming false _ (by decide)]
  decide

/-- C8: when some documents collide on a sanitized name, `generateArchive`
still succeeds and the archive has exactly one entry under that name,
whose content is the text of the last colliding document in input order. -/
theorem C8_collision_last_wins (useSlug : Bool) (docs : List MdProperty) (n : String)
    (h : docs.filter (fun d => entryName useSlug d == n) ≠ []) :
    ((generateArchive useSlug docs).filter (fun e => e.1 == n)).length = 1 ∧
    lookupA (generateArchive useSlug docs) n =
      ((docs.filter (fun d => entryName useSlug d == n)).getLast?).map MdProperty.text := by
  have hlast : (docs.filter (fun d => entryName useSlug d == n)).getLast?.isSome = true :=
    List.getLast?_isSome.mpr h
  obtain ⟨dl, hdl⟩ := Option.isSome_iff_exists.mp hlast
  have hlook : lookupA (generateArchive useSlug docs) n = some dl.text := by
    rw [generateArchive, generateArchive_go_lookup, hdl]
  constructor
  · have hle := filter_length_le_one_of_nodup (generateArchive useSlug docs) n
      (nodup_archKeys_generateArchive useSlug docs)
    have hne : (generateArchive useSlug docs).filter (fun e => e.1 == n) ≠ [] := by
      intro hnil
      have := (lookupA_none_iff (generateArchive useSlug docs) n).mpr hnil
      rw [hlook] at this
      exact Option.some_ne_none _ this
    have hpos := List.length_pos.mpr hne
    omega
  · rw [hlook, hdl]
    rfl

/-- C8 witness: the spec's Example 4 — titles `A/B` and `A-B` both
sanitize to `A-B.md`; the archive holds one entry with the text of the
second document. -/
theorem C8_collision_last_wins_witness :
    (([⟨{created := "c", modified := "m", title := "A/B", slug := "s1", extra := []}, "one"⟩,
       ⟨{created := "c", modified := "m", title := "A-B", slug := "s2", extra := []}, "two"⟩]
        : List MdProperty).filter (fun d => entryName false d == "A-B.md") ≠ []) ∧
    (((generateArchive false
        [⟨{created := "c", modified := "m", title := "A/B", slug := "s1", extra := []}, "one"⟩,
         ⟨{created := "c", modified := "m", title := "A-B", slug := "s2", extra := []}, "two"⟩]).filter
        (fun e => e.1 == "A-B.md")).length = 1 ∧
     lookupA (generateArchive false
        [⟨{created := "c", modified := "m", title := "A/B", slug := "s1", extra := []}, "one"⟩,
         ⟨{created := "c", modified := "m", title := "A-B", slug := "s2", extra := []}, "two"⟩]) "A-B.md"
       = (([⟨{created := "c", modified := "m", title := "A/B", slug := "s1", extra := []}, "one"⟩,
            ⟨{created := "c", modified := "m", title := "A-B", slug := "s2", extra := []}, "two"⟩]
             : List MdProperty).filter (fun d => entryName false d == "A-B.md")).getLast?.map
           MdProperty.text) :=
  ⟨by decide, C8_collision_last_wins false _ "A-B.md" (by decide)⟩

/-! ## Trim lemmas -/

theorem trimL_cons_of_ws (c : Char) (l : List Char) (h : isWs c = true) :
    trimL (c :: l) = trimL l := by
  simp [trimL, List.dropWhile_cons, h]

theorem trimL_cons_of_not_ws (c : Char) (l : List Char) (h : isWs c = false) :
    trimL (c :: l) = c :: l := by
  simp [trimL, List.dropWhile_cons, h]

theorem trimR_concat_ws (l : List Char) (c : Char) (h : isWs c = true) :
    trimR (l ++ [c]) = trimR l := by
  simp [trimR, List.dropWhile_cons, h]

/-- A character list ending in a non-whitespace character. -/
def endsClean (l : List Char) : Prop := ∃ a c, l = a ++ [c] ∧ isWs c = false

theorem endsClean_append (s t : List Char) (h : endsClean t) : endsClean (s ++ t) := by
  obtain ⟨a, c, rfl, hc⟩ := h
  exact ⟨s ++ a, c, by simp, hc⟩

theorem trimR_of_endsClean (l : List Char) (h : endsClean l) : trimR l = l := by
  obtain ⟨a, c, rfl, hc⟩ := h
  simp [trimR, List.dropWhile_cons, hc]

theorem trimL_decomp (l : List Char) :
    ∃ w, l = w ++ trimL l ∧ ∀ c ∈ w, isWs c = true := by
  refine ⟨l.takeWhile isWs, (List.takeWhile_append_dropWhile isWs l).symm, ?_⟩
  intro c hc
  exact List.mem_takeWhile_imp hc

theorem trimR_decomp (l : List Char) :
    ∃ w, l = trimR l ++ w ∧ ∀ c ∈ w, isWs c = true := by
  refine ⟨(l.reverse.takeWhile isWs).reverse, ?_, ?_⟩
  · rw [trimR]
    have h := congrArg List.reverse (List.takeWhile_append_dropWhile isWs l.reverse)
    rw [List.reverse_append, List.reverse_reverse] at h
    exact h.symm
  · intro c hc
    rw [List.mem_reverse] at hc
    exact List.mem_takeWhile_imp hc

theorem endsClean_of_trimChars (l : List Char) (h : trimChars l ≠ []) :
    endsClean (trimChars l) := by
  rw [trimChars, trimR] at h ⊢
  cases hd : (trimL l).reverse.dropWhile isWs with
  | nil => rw [hd] at h; simp at h
  | cons d t =>
    have hdw : isWs d = false := by
      have := List.head?_dropWhile_not isWs (trimL l).reverse
      rw [hd] at this
      simpa using this
    exact ⟨t.reverse, d, by simp, hdw⟩

theorem startsClean_of_trimChars (l : List Char) (h : trimChars l ≠ []) :
    ∃ c t, trimChars l = c :: t ∧ isWs c = false := by
  have hL : trimL l ≠ [] := by
    intro hnil
    rw [trimChars, hnil] at h
    simp [trimR] at h
  cases hc : trimL l with
  | nil => exact absurd hc hL
  | cons c t =>
    have hcw : isWs c = false := by
      have := List.head?_dropWhile_not isWs l
      rw [show l.dropWhile isWs = trimL l from rfl, hc] at this
      simpa using this
    obtain ⟨w, hw, hwall⟩ := trimR_decomp (c :: t)
    cases htc : trimR (c :: t) with
    | nil =>
      rw [htc] at hw
      simp at hw
      have := hwall c (by rw [← hw]; exact List.mem_cons_self c t)
      rw [this] at hcw
      exact absurd hcw (by simp)
    | cons c' t' =>
      rw [htc] at hw
      have hcc : c' = c := by
        have := congrArg (fun x => x.headD ' ') hw
        simpa using this.symm
      refine ⟨c, t', ?_, hcw⟩
      rw [trimChars, hc, htc, hcc]

theorem jsTrim_data (s : String) : (jsTrim s).data = trimChars s.data := rfl

theorem trimChars_trimChars (l : List Char) : trimChars (trimChars l) = trimChars l := by
  by_cases h : trimChars l = []
  · rw [h]; rfl
  · obtain ⟨c, t, hct, hc⟩ := startsClean_of_trimChars l h
    rw [trimChars, hct, trimL_cons_of_not_ws c t hc, ← hct,
      trimR_of_endsClean _ (endsClean_of_trimChars l h)]

/-! ## Lines lemmas -/

theorem joinLines_cons_of_ne (l : List Char) (ls : List (List Char)) (h : ls ≠ []) :
    joinLines (l :: ls) = l ++ '\n' :: joinLines ls := by
  cases ls with
  | nil => exact absurd rfl h
  | cons l' ls' => rfl

theorem unlines_eq_joinLines (ls : List (List Char)) (h : ls ≠ []) :
    unlines ls = joinLines ls ++ ['\n'] := by
  induction ls with
  | nil => exact absurd rfl h
  | cons l ls ih =>
    cases hls : ls with
    | nil => subst hls; simp [unlines, joinLines]
    | cons l' ls' =>
      subst hls
      rw [joinLines_cons_of_ne l (l' :: ls') (by simp), unlines, List.flatMap_cons]
      rw [show (l' :: ls').flatMap (fun l => l ++ ['\n']) = unlines (l' :: ls') from rfl,
        ih (by simp)]
      simp

theorem endsClean_joinLines (ls : List (List Char)) (h : ls ≠ [])
    (hall : ∀ l ∈ ls, endsClean l) : endsClean (joinLines ls) := by
  induction ls with
  | nil => exact absurd rfl h
  | cons l ls ih =>
    cases hls : ls with
    | nil => subst hls; exact hall l (List.mem_cons_self l [])
    | cons l' ls' =>
      subst hls
      rw [joinLines_cons_of_ne l (l' :: ls') (by simp)]
      have hrest : endsClean (joinLines (l' :: ls')) := by
        apply ih (by simp)
        intro x hx
        exact hall x (List.mem_cons_of_mem l hx)
      have hcons : endsClean ('\n' :: joinLines (l' :: ls')) := by
        obtain ⟨a, c, hac, hc⟩ := hrest
        exact ⟨'\n' :: a, c, by rw [hac]; rfl, hc⟩
      exact endsClean_append l _ hcons

/-! ## Header shape (claims C4, C5) -/

/-- The explicit reserved front of a composed header. -/
def headerFront (m : MetaInfo) : List (String × YamlVal) :=
  [("date", .str m.created), ("updated", .str m.modified),
   ("title", .str m.title), ("slug", .str m.slug)]

theorem foldl_objUpsert_fresh (l : List (String × YamlVal)) :
    ∀ acc : List (String × YamlVal),
    (∀ kv ∈ l, acc.all (fun e => !(e.1 == kv.1)) = true) →
    nodupKeys (l.map Prod.fst) = true →
    List.foldl objUpsert acc l = acc ++ l := by
  induction l with
  | nil => intro acc _ _; simp
  | cons kv t ih =>
    intro acc hfresh hnd
    rw [List.map_cons, nodupKeys] at hnd
    rw [Bool.and_eq_true] at hnd
    obtain ⟨hnotin, hnd⟩ := hnd
    rw [List.foldl_cons]
    have hup : objUpsert acc kv = acc ++ [kv] := by
      rw [objUpsert, if_neg]
      intro hany
      obtain ⟨e, he, hkey⟩ := List.any_eq_true.mp hany
      have := List.all_eq_true.mp (hfresh kv (List.mem_cons_self kv t)) e he
      rw [hkey] at this
      simp at this
    rw [hup, ih (acc ++ [kv]) ?_ hnd, List.append_assoc]
    · rfl
    · intro kv' hkv'
      rw [List.all_append, Bool.and_eq_true]
      constructor
      · exact List.all_eq_true.mpr fun e he =>
          List.all_eq_true.mp (hfresh kv' (List.mem_cons_of_mem kv hkv')) e he
      · have hne : kv.1 ≠ kv'.1 := by
          intro hcontra
          have hcontains : (t.map Prod.fst).contains kv.1 = true := by
            rw [List.contains_eq_any_beq, List.any_eq_true]
            exact ⟨kv'.1, List.mem_map.mpr ⟨kv', hkv', rfl⟩, beq_iff_eq.mpr hcontra⟩
          rw [hcontains] at hnotin
          simp at hnotin
        simp [hne]

theorem wfMeta_extra_key_not_reserved (m : MetaInfo) (hm : wfMeta m = true) :
    ∀ kv ∈ m.extra, kv.1 ≠ "date" ∧ kv.1 ≠ "updated" ∧ kv.1 ≠ "title" ∧ kv.1 ≠ "slug" := by
  intro kv hkv
  rw [wfMeta] at hm
  simp only [Bool.and_eq_true] at hm
  have hres := List.all_eq_true.mp hm.1.2 kv hkv
  rw [Bool.and_eq_true, Bool.and_eq_true] at hres
  have hnr := hres.2
  simp [reservedKeys, List.contains_eq_any_beq] at hnr
  exact ⟨hnr.1, hnr.2.1, hnr.2.2.1, hnr.2.2.2⟩

theorem endsClean_cons (x : Char) (t : List Char) (h : endsClean t) :
    endsClean (x :: t) := by
  obtain ⟨a, c, rfl, hc⟩ := h
  exact ⟨x :: a, c, rfl, hc⟩

theorem data_ne_nil_of_ne_empty (s : String) (h : s ≠ "") : s.data ≠ [] := by
  intro hd
  exact h (String.ext hd)

/-- The whole-template trim of `markdownBuilder`: a leading newline, a
body starting with a non-whitespace character and ending with a
non-whitespace character, and a trailing newline. -/
theorem trimChars_wrap (D : List Char) (c : Char) (hc : isWs c = false)
    (hD : ∃ E, D = c :: E) (hend : endsClean D) :
    trimChars ('\n' :: (D ++ ['\n'])) = D := by
  obtain ⟨E, rfl⟩ := hD
  rw [trimChars, trimL_cons_of_ws '\n' _ (by decide)]
  rw [show (c :: E) ++ ['\n'] = c :: (E ++ ['\n']) from rfl,
    trimL_cons_of_not_ws c _ hc,
    show c :: (E ++ ['\n']) = (c :: E) ++ ['\n'] from rfl,
    trimR_concat_ws _ '\n' (by decide)]
  exact trimR_of_endsClean _ hend

theorem mdBuilder_closed (m : MetaInfo) (b : String) (sh : Bool)
    (hb : jsTrim b ≠ "") :
    markdownBuilder ⟨m, b⟩ true sh
      = "---\n" ++ jsTrim (dumpYaml (buildHeader m)) ++ "\n---\n\n"
          ++ (if sh then "# " ++ m.title ++ "\n\n" else "") ++ "\n" ++ jsTrim b := by
  have hTd : (jsTrim b).data ≠ [] := data_ne_nil_of_ne_empty _ hb
  have hTend : endsClean (jsTrim b).data := endsClean_of_trimChars b.data hTd
  apply String.ext
  rw [markdownBuilder]
  simp only [Bool.not_true, Bool.false_eq_true, if_false]
  rw [jsTrim_data]
  set Y := jsTrim (dumpYaml (buildHeader m)) with hY
  set H := (if sh then ("# " ++ m.title ++ "\n\n" : String) else "") with hH
  set T := jsTrim b with hT
  set D := ("---\n" ++ Y ++ "\n---\n\n" ++ H ++ "\n" ++ T : String).data with hD
  have hin : ("\n---\n" ++ Y ++ "\n---\n\n" ++ H ++ "\n" ++ T ++ "\n" : String).data
      = '\n' :: (D ++ ['\n']) := by
    rw [hD]
    simp only [data_append]
    rfl
  rw [hin, trimChars_wrap D '-' (by decide) ?_ ?_]
  · rw [hD]
    simp only [data_append]
    exact ⟨_, rfl⟩
  · rw [hD]
    simp only [data_append]
    exact endsClean_append _ _ hTend

theorem buildHeader_eq (m : MetaInfo) (hm : wfMeta m = true) :
    buildHeader m = headerFront m ++ m.extra := by
  have hnd : nodupKeys (m.extra.map Prod.fst) = true := by
    rw [wfMeta] at hm
    simp only [Bool.and_eq_true] at hm
    exact hm.2
  rw [buildHeader, List.foldl_cons]
  have h1 : objUpsert [("date", .str m.created), ("updated", .str m.modified),
      ("title", .str m.title)] ("slug", YamlVal.str m.slug) = headerFront m := by
    rw [objUpsert, if_neg] <;> simp [headerFront]
  rw [h1, foldl_objUpsert_fresh m.extra (headerFront m) ?_ hnd]
  intro kv hkv
  obtain ⟨h1', h2', h3', h4'⟩ := wfMeta_extra_key_not_reserved m hm kv hkv
  simp [headerFront]
  exact ⟨fun h => h1' h.symm, fun h => h2' h.symm, fun h => h3' h.symm, fun h => h4' h.symm⟩

/-! ## Well-formedness facts for header serialization -/

theorem wfMeta_parts (m : MetaInfo) (hm : wfMeta m = true) :
    wfScalar m.created = true ∧ wfScalar m.modified = true ∧ wfScalar m.title = true
    ∧ wfScalar m.slug = true
    ∧ (∀ kv ∈ m.extra, wfKey kv.1 = true ∧ wfVal kv.2 = true) := by
  rw [wfMeta] at hm
  simp only [Bool.and_eq_true] at hm
  refine ⟨hm.1.1.1.1.1, hm.1.1.1.1.2, hm.1.1.1.2, hm.1.1.2, ?_⟩
  intro kv hkv
  have hh := List.all_eq_true.mp hm.1.2 kv hkv
  rw [Bool.and_eq_true, Bool.and_eq_true] at hh
  exact ⟨hh.1.1, hh.1.2⟩

theorem wfScalar_facts (s : String) (h : wfScalar s = true) :
    s.data ≠ [] ∧ endsClean s.data ∧ (∀ c ∈ s.data, c ≠ '\n') := by
  rw [wfScalar] at h
  simp only [Bool.and_eq_true] at h
  have hne : s.data ≠ [] := by
    have := h.1.1.1
    simp only [Bool.not_eq_true'] at this
    simp [List.isEmpty_iff] at this
    exact this
  refine ⟨hne, ?_, ?_⟩
  · have hlast := h.1.2
    rw [List.getLastD_eq_getLast?, List.getLast?_eq_getLast s.data hne] at hlast
    refine ⟨s.data.dropLast, s.data.getLast hne, (List.dropLast_append_getLast hne).symm, ?_⟩
    simpa using hlast
  · intro c hc
    have := List.all_eq_true.mp h.2 c hc
    simpa using this

theorem wfKey_shape (k : String) (h : wfKey k = true) :
    (∃ c t, k.data = c :: t ∧ isWs c = false ∧ c ≠ '-') ∧ (∀ x ∈ k.data, x ≠ ':') := by
  rw [wfKey] at h
  simp only [Bool.and_eq_true] at h
  obtain ⟨⟨hs, hcolon⟩, hdash⟩ := h
  have hne := (wfScalar_facts k hs).1
  constructor
  · cases hd : k.data with
    | nil => exact absurd hd hne
    | cons c t =>
      have hhead : isWs (k.data.headD ' ') = false := by
        rw [wfScalar] at hs
        simp only [Bool.and_eq_true] at hs
        simpa using hs.1.1.2
      rw [hd] at hhead
      refine ⟨c, t, rfl, by simpa using hhead, ?_⟩
      have := hdash
      rw [hd] at this
      simpa using this
  · intro x hx
    have := List.all_eq_true.mp hcolon x hx
    simpa using this

/-- Every line of a well-formed header field ends in a non-whitespace
character, contains no newline, and is not the `---` marker line. -/
theorem yamlLinesVal_line_facts (k : String) (v : YamlVal)
    (hk : wfKey k = true) (hv : wfVal v = true) :
    ∀ l ∈ yamlLinesVal k v, endsClean l ∧ (∀ c ∈ l, c ≠ '\n') ∧ l ≠ "---".data := by
  obtain ⟨⟨c, t, hkd, hcw, hcd⟩, hkcolon⟩ := wfKey_shape k hk
  have hknl : ∀ x ∈ k.data, x ≠ '\n' := by
    have hs : wfScalar k = true := by
      rw [wfKey] at hk
      simp only [Bool.and_eq_true] at hk
      exact hk.1.1
    exact (wfScalar_facts k hs).2.2
  intro l hl
  match v with
  | .str s =>
    rw [yamlLinesVal] at hl
    simp only [List.mem_singleton] at hl
    subst hl
    rw [wfVal] at hv
    obtain ⟨_, hse, hsnl⟩ := wfScalar_facts s hv
    refine ⟨?_, ?_, ?_⟩
    · exact endsClean_append _ _ (endsClean_cons ':' _ (endsClean_cons ' ' _ hse))
    · intro x hx
      simp only [List.mem_append, List.mem_cons] at hx
      rcases hx with hx | rfl | rfl | hx
      · exact hknl x hx
      · decide
      · decide
      · exact hsnl x hx
    · intro hcontra
      have hmem : ':' ∈ ("---" : String).data := by
        rw [← hcontra]
        exact List.mem_append.mpr (Or.inr (List.mem_cons_self _ _))
      simp at hmem
  | .list xs =>
    rw [wfVal, Bool.and_eq_true] at hv
    rw [yamlLinesVal] at hl
    rcases List.mem_cons.mp hl with hl | hl
    · subst hl
      refine ⟨⟨k.data, ':', rfl, by decide⟩, ?_, ?_⟩
      · intro x hx
        simp only [List.mem_append, List.mem_cons, List.not_mem_nil, or_false] at hx
        rcases hx with hx | rfl
        · exact hknl x hx
        · decide
      · intro hcontra
        have hmem : ':' ∈ ("---" : String).data := by
          rw [← hcontra]
          exact List.mem_append.mpr (Or.inr (List.mem_cons_self _ _))
        simp at hmem
    · rw [List.mem_map] at hl
      obtain ⟨x, hx, hlx⟩ := hl
      subst hlx
      have hxs : wfScalar x = true := List.all_eq_true.mp hv.2 x hx
      obtain ⟨_, hxe, hxnl⟩ := wfScalar_facts x hxs
      refine ⟨?_, ?_, ?_⟩
      · exact endsClean_cons ' ' _ (endsClean_cons ' ' _ (endsClean_cons '-' _
          (endsClean_cons ' ' _ hxe)))
      · intro y hy
        simp only [List.mem_cons] at hy
        rcases hy with rfl | rfl | rfl | rfl | hy
        · decide
        · decide
        · decide
        · decide
        · exact hxnl y hy
      · intro hcontra
        have := congrArg (fun z => z.headD ' ') hcontra
        simp at this

/-- All fields of a header built from well-formed metadata are
well-formed. -/
def headerWf (h : List (String × YamlVal)) : Prop :=
  ∀ kv ∈ h, wfKey kv.1 = true ∧ wfVal kv.2 = true

theorem headerWf_buildHeader (m : MetaInfo) (hm : wfMeta m = true) :
    headerWf (buildHeader m) := by
  obtain ⟨hc, hmo, ht, hs, hex⟩ := wfMeta_parts m hm
  rw [buildHeader_eq m hm]
  intro kv hkv
  rcases List.mem_append.mp hkv with hf | he
  · rw [headerFront] at hf
    simp only [List.mem_cons, List.not_mem_nil, or_false] at hf
    rcases hf with rfl | rfl | rfl | rfl
    · exact ⟨show wfKey "date" = true by decide, by rw [wfVal]; exact hc⟩
    · exact ⟨show wfKey "updated" = true by decide, by rw [wfVal]; exact hmo⟩
    · exact ⟨show wfKey "title" = true by decide, by rw [wfVal]; exact ht⟩
    · exact ⟨show wfKey "slug" = true by decide, by rw [wfVal]; exact hs⟩
  · exact hex kv he

theorem buildHeader_line_facts (m : MetaInfo) (hm : wfMeta m = true) :
    ∀ l ∈ yamlLines (buildHeader m),
      endsClean l ∧ (∀ c ∈ l, c ≠ '\n') ∧ l ≠ "---".data := by
  intro l hl
  rw [yamlLines, List.mem_flatMap] at hl
  obtain ⟨kv, hkv, hlkv⟩ := hl
  obtain ⟨hk, hv⟩ := headerWf_buildHeader m hm kv hkv
  exact yamlLinesVal_line_facts kv.1 kv.2 hk hv l hlkv

/-- Trimming a newline-terminated block of non-empty clean lines keeps
exactly the newline-separated join of the lines. -/
theorem trimChars_unlines_eq (c : Char) (t : List Char) (rest : List (List Char))
    (hc : isWs c = false) (hall : ∀ l ∈ (c :: t) :: rest, endsClean l) :
    trimChars (unlines ((c :: t) :: rest)) = joinLines ((c :: t) :: rest) := by
  rw [unlines_eq_joinLines _ (by simp)]
  have hJ : endsClean (joinLines ((c :: t) :: rest)) :=
    endsClean_joinLines _ (by simp) hall
  have hhead : ∃ X, joinLines ((c :: t) :: rest) = c :: X := by
    cases rest with
    | nil => exact ⟨t, rfl⟩
    | cons r rs =>
      rw [joinLines_cons_of_ne _ _ (by simp)]
      exact ⟨t ++ '\n' :: joinLines (r :: rs), rfl⟩
  obtain ⟨X, hX⟩ := hhead
  rw [hX, trimChars, show (c :: X) ++ ['\n'] = c :: (X ++ ['\n']) from rfl,
    trimL_cons_of_not_ws c _ hc,
    show c :: (X ++ ['\n']) = (c :: X) ++ ['\n'] from rfl,
    trimR_concat_ws _ '\n' (by decide), ← hX]
  exact trimR_of_endsClean _ hJ

theorem yamlLines_buildHeader (m : MetaInfo) (hm : wfMeta m = true) :
    yamlLines (buildHeader m)
      = ("date".data ++ ':' :: ' ' :: m.created.data)
        :: ("updated".data ++ ':' :: ' ' :: m.modified.data)
        :: ("title".data ++ ':' :: ' ' :: m.title.data)
        :: ("slug".data ++ ':' :: ' ' :: m.slug.data)
        :: yamlLines m.extra := by
  rw [buildHeader_eq m hm, yamlLines, yamlLines]
  rfl

theorem jsTrim_dumpYaml (m : MetaInfo) (hm : wfMeta m = true) :
    (jsTrim (dumpYaml (buildHeader m))).data = joinLines (yamlLines (buildHeader m)) := by
  have hall : ∀ l ∈ yamlLines (buildHeader m), endsClean l := by
    intro l hl
    exact (buildHeader_line_facts m hm l hl).1
  have hyl := yamlLines_buildHeader m hm
  rw [show (jsTrim (dumpYaml (buildHeader m))).data
      = trimChars (unlines (yamlLines (buildHeader m))) from rfl]
  rw [hyl] at hall ⊢
  rw [show ("date".data ++ ':' :: ' ' :: m.created.data)
      = 'd' :: ("ate".data ++ ':' :: ' ' :: m.created.data) from rfl] at hall ⊢
  exact trimChars_unlines_eq 'd' _ _ (by decide) hall

/-! ## Line splitting -/

theorem splitLinesList_ne_nil (l : List Char) : splitLinesList l ≠ [] := by
  induction l with
  | nil => simp [splitLinesList]
  | cons c rest ih =>
    rw [splitLinesList]
    by_cases hc : (c == '\n') = true
    · simp [hc]
    · simp only [hc, if_false, Bool.false_eq_true]
      cases hs : splitLinesList rest with
      | nil => simp
      | cons h t => simp

theorem splitLines_nl (l : List Char) :
    splitLinesList ('\n' :: l) = [] :: splitLinesList l := by
  rw [splitLinesList]
  simp

theorem splitLines_line_front (a : List Char) (rest : List Char)
    (ha : ∀ c ∈ a, c ≠ '\n') :
    splitLinesList (a ++ '\n' :: rest) = a :: splitLinesList rest := by
  induction a with
  | nil => simpa using splitLines_nl rest
  | cons c a ih =>
    have hc : c ≠ '\n' := ha c (List.mem_cons_self c a)
    have ha' : ∀ x ∈ a, x ≠ '\n' := fun x hx => ha x (List.mem_cons_of_mem c hx)
    rw [List.cons_append, splitLinesList]
    simp only [show (c == '\n') = false by simpa using hc, if_false, Bool.false_eq_true]
    rw [ih ha']

theorem splitLines_join_front (ls : List (List Char)) (rest : List Char)
    (h : ls ≠ []) (hnl : ∀ l ∈ ls, ∀ c ∈ l, c ≠ '\n') :
    splitLinesList (joinLines ls ++ '\n' :: rest) = ls ++ splitLinesList rest := by
  induction ls with
  | nil => exact absurd rfl h
  | cons l ls ih =>
    cases hls : ls with
    | nil =>
      subst hls
      rw [show joinLines [l] = l from rfl,
        splitLines_line_front l rest (hnl l (List.mem_cons_self l []))]
      rfl
    | cons l' ls' =>
      subst hls
      rw [joinLines_cons_of_ne l (l' :: ls') (by simp), List.append_assoc,
        List.cons_append]
      rw [splitLines_line_front l _ (hnl l (List.mem_cons_self l _))]
      rw [ih (by simp) (fun x hx => hnl x (List.mem_cons_of_mem l hx))]
      rfl

theorem joinLines_splitLines (l : List Char) :
    joinLines (splitLinesList l) = l := by
  induction l with
  | nil => rfl
  | cons c rest ih =>
    rw [splitLinesList]
    by_cases hc : (c == '\n') = true
    · simp only [hc, if_true]
      rw [joinLines_cons_of_ne [] _ (splitLinesList_ne_nil rest), ih]
      have : c = '\n' := by simpa using hc
      rw [this]
      rfl
    · simp only [hc, if_false, Bool.false_eq_true]
      cases hs : splitLinesList rest with
      | nil => exact absurd hs (splitLinesList_ne_nil rest)
      | cons h t =>
        rw [hs] at ih
        cases t with
        | nil =>
          rw [show joinLines [c :: h] = c :: h from rfl]
          rw [show joinLines [h] = h from rfl] at ih
          rw [ih]
        | cons t' ts =>
          rw [joinLines_cons_of_ne (c :: h) _ (by simp),
            joinLines_cons_of_ne h _ (by simp)] at *
          rw [List.cons_append, ih]

theorem dropWhile_append_pos (p : List Char → Bool) (l₁ l₂ : List (List Char))
    (h : ∀ x ∈ l₁, p x = true) :
    (l₁ ++ l₂).dropWhile p = l₂.dropWhile p := by
  induction l₁ with
  | nil => rfl
  | cons x l₁ ih =>
    rw [List.cons_append, List.dropWhile_cons, if_pos (h x (List.mem_cons_self x l₁))]
    exact ih (fun y hy => h y (List.mem_cons_of_mem x hy))

theorem takeWhile_append_pos (p : List Char → Bool) (l₁ l₂ : List (List Char))
    (h : ∀ x ∈ l₁, p x = true) :
    (l₁ ++ l₂).takeWhile p = l₁ ++ l₂.takeWhile p := by
  induction l₁ with
  | nil => rfl
  | cons x l₁ ih =>
    rw [List.cons_append, List.takeWhile_cons, if_pos (h x (List.mem_cons_self x l₁)),
      ih (fun y hy => h y (List.mem_cons_of_mem x hy)), List.cons_append]

/-! ## Header parsing (decompose direction) -/

theorem trimChars_cons_of_ws (c : Char) (l : List Char) (h : isWs c = true) :
    trimChars (c :: l) = trimChars l := by
  rw [trimChars, trimL_cons_of_ws c l h]
  rfl

theorem takeWhile_no_colon (k : List Char) (hk : ∀ c ∈ k, c ≠ ':') (rest : List Char) :
    (k ++ ':' :: rest).takeWhile (fun c => !(c == ':')) = k := by
  induction k with
  | nil => simp [List.takeWhile_cons]
  | cons c k ih =>
    have hc : c ≠ ':' := hk c (List.mem_cons_self c k)
    rw [List.cons_append, List.takeWhile_cons, if_pos (by simp [hc]),
      ih (fun y hy => hk y (List.mem_cons_of_mem c hy))]

theorem dropWhile_no_colon (k : List Char) (hk : ∀ c ∈ k, c ≠ ':') (rest : List Char) :
    (k ++ ':' :: rest).dropWhile (fun c => !(c == ':')) = ':' :: rest := by
  induction k with
  | nil => simp [List.dropWhile_cons]
  | cons c k ih =>
    have hc : c ≠ ':' := hk c (List.mem_cons_self c k)
    rw [List.cons_append, List.dropWhile_cons, if_pos (by simp [hc]),
      ih (fun y hy => hk y (List.mem_cons_of_mem c hy))]

theorem splitAtColon_key (k : List Char) (hk : ∀ c ∈ k, c ≠ ':') (rest : List Char) :
    splitAtColon (k ++ ':' :: rest) = some (k, rest) := by
  rw [splitAtColon]
  rw [dropWhile_no_colon k hk rest, takeWhile_no_colon k hk rest]
  rfl

theorem isItemLine_item (x : List Char) :
    isItemLine (' ' :: ' ' :: '-' :: ' ' :: x) = true := rfl

theorem isItemLine_of_head (c : Char) (t : List Char) (hc : c ≠ ' ') :
    isItemLine (c :: t) = false := by
  rw [isItemLine, List.take_succ_cons,
    show ("  - " : String).data = ' ' :: ' ' :: '-' :: [' '] from rfl,
    List.cons_beq_cons]
  simp [hc]

theorem parseStep_scalar (k v : String) (hk : wfKey k = true)
    (acc : List String × List (String × YamlVal)) :
    parseStep (k.data ++ ':' :: ' ' :: v.data) acc = ([], (k, .str v) :: acc.2) := by
  obtain ⟨⟨c, t, hkd, hcw, _⟩, hkcolon⟩ := wfKey_shape k hk
  have hcs : c ≠ ' ' := by
    intro h
    rw [h] at hcw
    exact absurd hcw (by decide)
  have hitem : isItemLine (k.data ++ ':' :: ' ' :: v.data) = false := by
    rw [hkd, List.cons_append]
    exact isItemLine_of_head c _ hcs
  rw [parseStep, hitem]
  simp only [Bool.false_eq_true, if_false]
  rw [splitAtColon_key k.data hkcolon (' ' :: v.data)]
  simp [mk_data]

theorem parseStep_keyline (k : String) (hk : wfKey k = true)
    (acc : List String × List (String × YamlVal)) :
    parseStep (k.data ++ [':']) acc = ([], (k, .list acc.1) :: acc.2) := by
  obtain ⟨⟨c, t, hkd, hcw, _⟩, hkcolon⟩ := wfKey_shape k hk
  have hcs : c ≠ ' ' := by
    intro h
    rw [h] at hcw
    exact absurd hcw (by decide)
  have hitem : isItemLine (k.data ++ [':']) = false := by
    rw [hkd, List.cons_append]
    exact isItemLine_of_head c _ hcs
  rw [parseStep, hitem]
  simp only [Bool.false_eq_true, if_false]
  rw [show (k.data ++ [':'] : List Char) = k.data ++ ':' :: [] from rfl,
    splitAtColon_key k.data hkcolon []]

theorem parseStep_item (x : String) (acc : List String × List (String × YamlVal)) :
    parseStep (' ' :: ' ' :: '-' :: ' ' :: x.data) acc = (x :: acc.1, acc.2) := by
  rw [parseStep, isItemLine_item]
  simp [mk_data]

theorem parse_items (xs : List String) (acc : List String × List (String × YamlVal)) :
    List.foldr parseStep acc (xs.map (fun x => ' ' :: ' ' :: '-' :: ' ' :: x.data))
      = (xs ++ acc.1, acc.2) := by
  induction xs with
  | nil => simp
  | cons x xs ih =>
    rw [List.map_cons, List.foldr_cons, ih, parseStep_item]
    rfl

theorem parseYaml_acc (h : List (String × YamlVal)) :
    ∀ acc : List (String × YamlVal), headerWf h →
    List.foldr parseStep ([], acc) (yamlLines h) = ([], h ++ acc) := by
  induction h with
  | nil => intro acc _; simp [yamlLines]
  | cons kv t ih =>
    intro acc hwf
    obtain ⟨hk, hv⟩ := hwf kv (List.mem_cons_self kv t)
    have hwft : headerWf t := fun x hx => hwf x (List.mem_cons_of_mem kv hx)
    obtain ⟨k, v⟩ := kv
    rw [yamlLines, List.flatMap_cons,
      show t.flatMap (fun kv => yamlLinesVal kv.1 kv.2) = yamlLines t from rfl,
      List.foldr_append, ih acc hwft]
    match v with
    | .str s =>
      rw [show yamlLinesVal (k, YamlVal.str s).1 (k, YamlVal.str s).2
          = [k.data ++ ':' :: ' ' :: s.data] from rfl]
      rw [show List.foldr parseStep (([], t ++ acc) : List String × List (String × YamlVal))
          [k.data ++ ':' :: ' ' :: s.data]
          = parseStep (k.data ++ ':' :: ' ' :: s.data) ([], t ++ acc) from rfl]
      rw [parseStep_scalar k s hk ([], t ++ acc)]
      rfl
    | .list xs =>
      rw [show yamlLinesVal (k, YamlVal.list xs).1 (k, YamlVal.list xs).2
          = (k.data ++ [':']) :: xs.map (fun x => ' ' :: ' ' :: '-' :: ' ' :: x.data) from rfl]
      rw [List.foldr_cons, parse_items xs ([], t ++ acc)]
      rw [show ((xs ++ ([] : List String), t ++ acc) : List String × List (String × YamlVal))
          = (xs, t ++ acc) by simp]
      rw [parseStep_keyline k hk (xs, t ++ acc)]
      rfl

theorem parseYamlLines_round (h : List (String × YamlVal)) (hwf : headerWf h) :
    parseYamlLines (yamlLines h) = h := by
  rw [parseYamlLines, parseYaml_acc h [] hwf]
  simp

theorem recoverMeta_buildHeader (m : MetaInfo) (hm : wfMeta m = true) :
    recoverMeta (buildHeader m) = some m := by
  have hres := wfMeta_extra_key_not_reserved m hm
  have hfilter : m.extra.filter
      (fun kv => !(kv.1 == "date" || kv.1 == "updated" || kv.1 == "title" || kv.1 == "slug"))
      = m.extra := by
    rw [List.filter_eq_self]
    intro kv hkv
    obtain ⟨h1, h2, h3, h4⟩ := hres kv hkv
    simp [h1, h2, h3, h4]
  rw [buildHeader_eq m hm, headerFront]
  show some (MetaInfo.mk m.created m.modified m.title m.slug
      (m.extra.filter (fun kv =>
        !(kv.1 == "date" || kv.1 == "updated" || kv.1 == "title" || kv.1 == "slug"))))
    = some m
  rw [hfilter]

/-- Example metadata (the spec's Example 3, with a slug). -/
def exMeta : MetaInfo :=
  { created := "T1", modified := "T2", title := "A", slug := "a",
    extra := [("tags", .list ["x"])] }

/-- C4: with `includeYAMLHeader` the builder emits the outer-trimmed
concatenation of a `---` delimiter line, the trimmed serialized header,
a `---` delimiter line, a blank line, a `# title` heading exactly when
`showHeader` is set, and the trimmed body — and the serialized header
holds `date = created`, `updated = modified`, `title`, and every other
metadata field except `created`/`modified`/`title` (that is, `slug` and
the extra fields), in order. -/
theorem C4_compose_with_header (m : MetaInfo) (b : String) (sh : Bool)
    (hm : wfMeta m = true) (hb : jsTrim b ≠ "") :
    markdownBuilder ⟨m, b⟩ true sh
      = "---\n" ++ jsTrim (dumpYaml (buildHeader m)) ++ "\n---\n\n"
          ++ (if sh then "# " ++ m.title ++ "\n\n" else "") ++ "\n" ++ jsTrim b
    ∧ buildHeader m
      = [("date", .str m.created), ("updated", .str m.modified),
         ("title", .str m.title), ("slug", .str m.slug)] ++ m.extra :=
  ⟨mdBuilder_closed m b sh hb, buildHeader_eq m hm⟩

/-- C4 witness: the spec's Example 3. -/
theorem C4_compose_with_header_witness :
    (wfMeta exMeta = true ∧ jsTrim "hello" ≠ "") ∧
    (markdownBuilder ⟨exMeta, "hello"⟩ true false
      = "---\n" ++ jsTrim (dumpYaml (buildHeader exMeta)) ++ "\n---\n\n"
          ++ (if false then "# " ++ exMeta.title ++ "\n\n" else "") ++ "\n" ++ jsTrim "hello"
     ∧ buildHeader exMeta
      = [("date", .str exMeta.created), ("updated", .str exMeta.modified),
         ("title", .str exMeta.title), ("slug", .str exMeta.slug)] ++ exMeta.extra) :=
  ⟨⟨by decide, by decide⟩, C4_compose_with_header exMeta "hello" false (by decide) (by decide)⟩

/-- C5: decomposing a document composed with the YAML header recovers
the header and the trimmed body: the header parses back to exactly the
composed field list, reading it back as metadata restores `m` itself
(`date` back to `created`, `updated` back to `modified`), and date
normalization of the composed header's fields yields `created` and
`modified` equal to `m`'s. -/
theorem C5_compose_decompose_round_trip (now : String) (m : MetaInfo) (b : String)
    (hm : wfMeta m = true) (hb : jsTrim b ≠ "") :
    decomposeDoc (markdownBuilder ⟨m, b⟩ true false) = some (buildHeader m, jsTrim b)
    ∧ recoverMeta (buildHeader m) = some m
    ∧ genDate now ⟨b, some ⟨m.title, some m.created, some m.modified⟩⟩
        = (m.created, m.modified) := by
  refine ⟨?_, recoverMeta_buildHeader m hm, rfl⟩
  have hfacts := buildHeader_line_facts m hm
  have hylnl : ∀ l ∈ yamlLines (buildHeader m), ∀ c ∈ l, c ≠ '\n' :=
    fun l hl => (hfacts l hl).2.1
  have hylmk : ∀ l ∈ yamlLines (buildHeader m), (!(l == "---".data)) = true := by
    intro l hl
    simp [(hfacts l hl).2.2]
  have hylne : yamlLines (buildHeader m) ≠ [] := by
    rw [yamlLines_buildHeader m hm]
    simp
  rw [mdBuilder_closed m b false hb,
    show (if false then ("# " ++ m.title ++ "\n\n" : String) else "") = "" from rfl]
  have hS : ("---\n" ++ jsTrim (dumpYaml (buildHeader m)) ++ "\n---\n\n" ++ "" ++ "\n"
        ++ jsTrim b : String).data
      = "---".data ++ '\n' :: (joinLines (yamlLines (buildHeader m))
          ++ '\n' :: ("---".data ++ '\n' :: ('\n' :: ('\n' :: (jsTrim b).data)))) := by
    simp only [data_append, jsTrim_dumpYaml m hm]
    simp [List.append_assoc]
  have hsplit : splitLinesList ("---\n" ++ jsTrim (dumpYaml (buildHeader m)) ++ "\n---\n\n"
        ++ "" ++ "\n" ++ jsTrim b : String).data
      = "---".data :: (yamlLines (buildHeader m)
          ++ "---".data :: [] :: [] :: splitLinesList (jsTrim b).data) := by
    rw [hS, splitLines_line_front "---".data _ (by decide),
      splitLines_join_front _ _ hylne hylnl,
      splitLines_line_front "---".data _ (by decide),
      splitLines_nl, splitLines_nl]
  rw [decomposeDoc, hsplit]
  simp only [beq_self_eq_true, if_true]
  rw [dropWhile_append_pos _ _ _ hylmk, takeWhile_append_pos _ _ _ hylmk,
    List.dropWhile_cons, List.takeWhile_cons]
  simp only [beq_self_eq_true, Bool.not_true, Bool.false_eq_true, if_false]
  rw [List.append_nil, parseYamlLines_round _ (headerWf_buildHeader m hm)]
  have hbody : jsTrim ⟨joinLines ([] :: [] :: splitLinesList (jsTrim b).data)⟩
      = jsTrim b := by
    rw [joinLines_cons_of_ne _ _ (by simp),
      joinLines_cons_of_ne _ _ (splitLinesList_ne_nil _),
      joinLines_splitLines]
    apply String.ext
    rw [jsTrim_data, jsTrim_data]
    show trimChars ('\n' :: '\n' :: trimChars b.data) = trimChars b.data
    rw [trimChars_cons_of_ws '\n' _ (by decide), trimChars_cons_of_ws '\n' _ (by decide),
      trimChars_trimChars]
  rw [hbody]

/-- C5 witness: the spec's Example 3 round-trips. -/
theorem C5_compose_decompose_round_trip_witness :
    (wfMeta exMeta = true ∧ jsTrim "hello" ≠ "") ∧
    (decomposeDoc (markdownBuilder ⟨exMeta, "hello"⟩ true false)
        = some (buildHeader exMeta, jsTrim "hello")
     ∧ recoverMeta (buildHeader exMeta) = some exMeta
     ∧ genDate "NOW" ⟨"hello", some ⟨exMeta.title, some exMeta.created, some exMeta.modified⟩⟩
         = (exMeta.created, exMeta.modified)) :=
  ⟨⟨by decide, by decide⟩,
   C5_compose_decompose_round_trip "NOW" exMeta "hello" (by decide) (by decide)⟩

end MxMd
